import Mathlib

/-!
Verification development for the pyTempNets temporal-network library.

This file gives a shallow embedding of `pyTempNet/TemporalNetwork.py` and of
the k-path extractor in `pyTempNet/AggregateNetwork.py`, and settles the
frozen claims about them.

Modelling conventions:
* Node identifiers are `String`; timestamps are `Int` (Python integers).
* Edge weights are modelled as exact rationals `ℚ`; the Python code uses
  floating point, and the claims speak of equality within floating
  tolerance, which the exact rational model makes precise.
* Python dictionaries (which iterate in insertion order) are modelled as
  association lists in insertion order; `defaultdict` lookups are lookups
  with a default value.
* Python sets (`set()`), whose iteration order is unspecified, are modelled
  as duplicate-free lists in first-insertion order; no theorem below about
  them depends on this chosen order in a way the Python code does not.
* Second-order vertex names, built in Python as the string `s + ";" + v`
  and split at the separator when read back, are modelled as pairs
  `(s, v)`; this is faithful whenever node identifiers do not contain the
  separator character.
-/

/-- A time-stamped directed edge, Python tuple `(source, target, time)`. -/
structure TEdge where
  src : String
  dst : String
  t : Int
deriving DecidableEq, Repr

/-- A weighted two-path, Python tuple `(s, v, d, weight)` representing the
time-respecting path `(s,v) -> (v,d)`. -/
structure TwoPath where
  src : String
  mid : String
  dst : String
  w : ℚ
deriving DecidableEq, Repr

/-- Keep the first occurrence of each element, dropping later duplicates:
the key order of a Python dict built by repeated insertion. -/
def firstDedupAux [DecidableEq α] (seen : List α) : List α → List α
  | [] => []
  | x :: xs => if x ∈ seen then firstDedupAux seen xs else x :: firstDedupAux (x :: seen) xs

/-- Duplicate-free list in first-occurrence order. -/
def firstDedup [DecidableEq α] (l : List α) : List α :=
  firstDedupAux [] l

/-- Append an element to a list unless already present: Python `set.add` or
the `if x not in l: l.append(x)` idiom, in insertion order. -/
def addUnique [DecidableEq α] (l : List α) (x : α) : List α :=
  if x ∈ l then l else l ++ [x]

/-- Lookup in an association list with a default: Python `d.get(k, dflt)`
or a `defaultdict` read. -/
def lookupD [DecidableEq α] : List (α × β) → α → β → β
  | [], _, d => d
  | (k, v) :: rest, key, d => if k = key then v else lookupD rest key d

/-- Update the value at a key through `f`, inserting `f dflt` at the end if
the key is absent: the Python `d[k] = f(d.get(k, dflt))` / `setdefault`
idiom, preserving dict insertion order. -/
def updateAssoc [DecidableEq α] (key : α) (f : β → β) (dflt : β) : List (α × β) → List (α × β)
  | [] => [(key, f dflt)]
  | (k, v) :: rest => if k = key then (k, f v) :: rest else (k, v) :: updateAssoc key f dflt rest

/-- Insert into a sorted list of integers, ascending. -/
def insertSorted (x : Int) : List Int → List Int
  | [] => [x]
  | y :: ys => if x ≤ y then x :: y :: ys else y :: insertSorted x ys

/-- Insertion sort, ascending: models `np.sort` on the dict keys. -/
def sortInts : List Int → List Int
  | [] => []
  | x :: xs => insertSorted x (sortInts xs)

/-- Edges active at time `ts`: the `time[ts]` index built in
`extractTwoPaths`, in edge insertion order. -/
def edgesAt (tedges : List TEdge) (ts : Int) : List TEdge :=
  tedges.filter (fun e => e.t = ts)

/-- Edges at time `ts` ending at `v`: the `targets[ts][v]` index. -/
def inEdges (tedges : List TEdge) (ts : Int) (v : String) : List TEdge :=
  tedges.filter (fun e => e.t = ts ∧ e.dst = v)

/-- Edges at time `ts` starting at `v`: the `sources[ts][v]` index. -/
def outEdges (tedges : List TEdge) (ts : Int) (v : String) : List TEdge :=
  tedges.filter (fun e => e.t = ts ∧ e.src = v)

/-- The distinct target nodes at time `ts`, in the key order of the
`targets[ts]` dict (first appearance among edges at `ts`). -/
def targetNodesAt (tedges : List TEdge) (ts : Int) : List String :=
  firstDedup ((edgesAt tedges ts).map (fun e => e.dst))

/-- The sorted distinct timestamps: `np.sort(list(time.keys()))` in
`extractTwoPaths`. -/
def sortedTimes (tedges : List TEdge) : List Int :=
  sortInts (firstDedup (tedges.map (fun e => e.t)))

/-- The group of two-paths generated for one pair of consecutive distinct
timestamps `(prevT, t)`: the body of the `else` branch of the loop in
`extractTwoPaths`, looping over target nodes `v` at `prevT` that are also
sources at `t`, then over outgoing edges at `t` (outer) and incoming edges
at `prevT` (inner), with weight `1/(indeg_v * outdeg_v)`. -/
def twoPathsOfPair (tedges : List TEdge) (prevT t : Int) : List TwoPath :=
  (targetNodesAt tedges prevT).flatMap (fun v =>
    if (outEdges tedges t v).isEmpty then []
    else
      (outEdges tedges t v).flatMap (fun eOut =>
        (inEdges tedges prevT v).map (fun eIn =>
          ⟨eIn.src, v, eOut.dst,
            (1 : ℚ) / (((inEdges tedges prevT v).length : ℚ) * ((outEdges tedges t v).length : ℚ))⟩)))

/-- The main loop of `extractTwoPaths`: iterate over the sorted distinct
timestamps with `prev_t` initialised to the sentinel `-1`; for each
consecutive pair, emit the group unless `prev_t == -1` or
`prev_t < t - delta`. Each two-path is tagged with the group timestamp `t`
at which it was produced (used by the `twopathsByNode` and
`twopathsByTime` indices). -/
def extractAux (tedges : List TEdge) (delta : Int) : Int → List Int → List (Int × TwoPath)
  | _, [] => []
  | prev, t :: rest =>
    (if prev = -1 ∨ prev < t - delta then []
     else (twoPathsOfPair tedges prev t).map (fun tp => (t, tp)))
      ++ extractAux tedges delta t rest

/-- All extracted two-paths with their group timestamps. -/
def extractTwoPathsPairs (tedges : List TEdge) (delta : Int) : List (Int × TwoPath) :=
  extractAux tedges delta (-1) (sortedTimes tedges)

/-- The flat list `self.twopaths` produced by `extractTwoPaths`. -/
def extractTwoPathsList (tedges : List TEdge) (delta : Int) : List TwoPath :=
  (extractTwoPathsPairs tedges delta).map (fun p => p.2)

/-- The two-paths generated from one fixed incoming edge `eIn` in the group
of timestamps `(prevT, t)`: one per outgoing edge at `t` starting at the
target of `eIn`(the innermost `for e_in` body of `extractTwoPaths`,
transposed to fix `eIn`). -/
def twoPathsFromInEdge (tedges : List TEdge) (prevT t : Int) (eIn : TEdge) : List TwoPath :=
  (outEdges tedges t eIn.dst).map (fun eOut =>
    ⟨eIn.src, eIn.dst, eOut.dst,
      (1 : ℚ) / (((inEdges tedges prevT eIn.dst).length : ℚ) * ((outEdges tedges t eIn.dst).length : ℚ))⟩)

/-- Sum of the weights of a list of two-paths. -/
def sumWeights (l : List TwoPath) : ℚ :=
  (l.map (fun tp => tp.w)).sum

/-- A weighted directed graph with named vertices: models an `igraph.Graph`
with a vertex `name` attribute and an edge `weight` attribute, with edges
keyed by vertex-name endpoint pairs. -/
structure WGraph (V : Type) where
  vertexNames : List V
  edges : List ((V × V) × ℚ)
deriving DecidableEq, Repr

/-- The state of a `TemporalNetwork` instance. The cached graphs `g1`,
`g2`, `g2n` use `none` for the Python sentinel `0`. -/
structure TemporalNetwork where
  tedges : List TEdge
  nodes : List String
  twopaths : List TwoPath
  twopathsByNode : List (String × List (Int × List TwoPath))
  twopathsByTime : List (Int × List (String × List TwoPath))
  tpcount : Int
  g1 : Option (WGraph String)
  g2 : Option (WGraph (String × String))
  g2n : Option (WGraph (String × String))
deriving Repr

/-- The constructor `TemporalNetwork(tedges=...)`: copies the edges and
collects nodes (source before target, per edge, first occurrence kept);
all caches start empty and `tpcount = -1`. -/
def mkFromTEdges (es : List TEdge) : TemporalNetwork :=
  { tedges := es
    nodes := es.foldl (fun ns e => addUnique (addUnique ns e.src) e.dst) []
    twopaths := []
    twopathsByNode := []
    twopathsByTime := []
    tpcount := -1
    g1 := none
    g2 := none
    g2n := none }

/-- The constructor `TemporalNetwork(twopaths=...)`: stores the two-paths,
collects nodes (`s`, then `v`, then `d`, per two-path), fills
`twopathsByNode` keyed by mid node and a running counter `t`, and sets
`tpcount` to the number of supplied two-paths; `tedges` stays empty. -/
def mkFromTwoPaths (tps : List TwoPath) : TemporalNetwork :=
  { tedges := []
    nodes := tps.foldl (fun ns tp => addUnique (addUnique (addUnique ns tp.src) tp.mid) tp.dst) []
    twopaths := tps
    twopathsByNode :=
      tps.enum.foldl
        (fun m p => updateAssoc p.2.mid (fun inner => updateAssoc (p.1 : Int) (fun l => l ++ [p.2]) [] inner) [] m)
        []
    twopathsByTime := []
    tpcount := tps.length
    g1 := none
    g2 := none
    g2n := none }

/-- The mutator `addEdge`: appends the edge, extends the node list, and
resets `tpcount` to `-1`; the cached graphs `g1`, `g2`, `g2n` are left
untouched by the source. -/
def TemporalNetwork.addEdge (tn : TemporalNetwork) (source target : String) (time : Int) : TemporalNetwork :=
  { tn with
    tedges := tn.tedges ++ [⟨source, target, time⟩]
    nodes := addUnique (addUnique tn.nodes source) target
    tpcount := -1 }

/-- The query `vcount`. -/
def TemporalNetwork.vcount (tn : TemporalNetwork) : Nat :=
  tn.nodes.length

/-- The query `ecount`. -/
def TemporalNetwork.ecount (tn : TemporalNetwork) : Nat :=
  tn.tedges.length

/-- The method `extractTwoPaths(delta)` as a state transformer: the flat
list `self.twopaths` is reset and rebuilt, while the indices
`twopathsByNode` and `twopathsByTime` are appended to on top of their
previous contents (the source never clears them); `tpcount` becomes the
new list length. -/
def TemporalNetwork.extractTwoPaths (tn : TemporalNetwork) (delta : Int) : TemporalNetwork :=
  let pairs := extractTwoPathsPairs tn.tedges delta
  { tn with
    twopaths := pairs.map (fun p => p.2)
    twopathsByNode :=
      pairs.foldl
        (fun m p => updateAssoc p.2.mid (fun inner => updateAssoc p.1 (fun l => l ++ [p.2]) [] inner) [] m)
        tn.twopathsByNode
    twopathsByTime :=
      pairs.foldl
        (fun m p => updateAssoc p.1 (fun inner => updateAssoc p.2.mid (fun l => l ++ [p.2]) [] inner) [] m)
        tn.twopathsByTime
    tpcount := (pairs.map (fun p => p.2)).length }

/-- The query `TwoPathCount`: extracts two-paths first (with the default
`delta = 1`) when `tpcount` is the sentinel `-1`. -/
def TemporalNetwork.TwoPathCount (tn : TemporalNetwork) : Int × TemporalNetwork :=
  if tn.tpcount = -1 then
    let tn2 := tn.extractTwoPaths 1
    (tn2.tpcount, tn2)
  else (tn.tpcount, tn)

/-- The accumulated first-order edge dictionary: each two-path `(s,v,d,w)`
adds `w` to edge `(s,v)` and to edge `(v,d)`, keys in insertion order. -/
def firstOrderEdges (tps : List TwoPath) : List ((String × String) × ℚ) :=
  tps.foldl
    (fun el tp =>
      updateAssoc (tp.mid, tp.dst) (fun x => x + tp.w) 0
        (updateAssoc (tp.src, tp.mid) (fun x => x + tp.w) 0 el))
    []

/-- The accessor `igraphFirstOrder`: returns the cached `g1` when present;
otherwise extracts two-paths if needed (default `delta = 1`), builds the
first-order aggregate graph over `self.nodes`, caches and returns it. -/
def TemporalNetwork.igraphFirstOrder (tn : TemporalNetwork) : WGraph String × TemporalNetwork :=
  match tn.g1 with
  | some g => (g, tn)
  | none =>
    let tn2 := if tn.tpcount = -1 then tn.extractTwoPaths 1 else tn
    let g : WGraph String := ⟨tn2.nodes, firstOrderEdges tn2.twopaths⟩
    (g, { tn2 with g1 := some g })

/-- The second-order vertex list: names `s;v` and `v;d` collected per
two-path and deduplicated through a Python `set` (iteration order
unspecified; modelled in first-occurrence order). -/
def secondOrderVertices (tps : List TwoPath) : List (String × String) :=
  firstDedup (tps.flatMap (fun tp => [(tp.src, tp.mid), (tp.mid, tp.dst)]))

/-- The second-order edge dictionary: edge `(s;v) -> (v;d)` accumulates the
two-path weight `w`. -/
def secondOrderEdges (tps : List TwoPath) : List (((String × String) × (String × String)) × ℚ) :=
  tps.foldl
    (fun ed tp => updateAssoc ((tp.src, tp.mid), (tp.mid, tp.dst)) (fun x => x + tp.w) 0 ed)
    []

/-- The accessor `igraphSecondOrder`: returns the cached `g2` when present;
otherwise extracts two-paths if needed and builds the second-order
aggregate graph. -/
def TemporalNetwork.igraphSecondOrder (tn : TemporalNetwork) : WGraph (String × String) × TemporalNetwork :=
  match tn.g2 with
  | some g => (g, tn)
  | none =>
    let tn2 := if tn.tpcount = -1 then tn.extractTwoPaths 1 else tn
    let g : WGraph (String × String) := ⟨secondOrderVertices tn2.twopaths, secondOrderEdges tn2.twopaths⟩
    (g, { tn2 with g2 := some g })

/-- Directed adjacency test on a weighted graph. -/
def hasEdgeB [DecidableEq V] (g : WGraph V) (a b : V) : Bool :=
  g.edges.any (fun e => e.1.1 = a ∧ e.1.2 = b)

/-- One expansion step of forward reachability. -/
def stepClose [DecidableEq V] (g : WGraph V) (s : List V) : List V :=
  firstDedup (s ++ g.vertexNames.filter (fun b => s.any (fun a => hasEdgeB g a b)))

/-- Vertices forward-reachable from `a` (including `a`), by iterating the
expansion step once per vertex. -/
def reachList [DecidableEq V] (g : WGraph V) (a : V) : List V :=
  (stepClose g)^[g.vertexNames.length] [a]

/-- The strongly connected component of `a`: vertices mutually reachable
with `a`, in vertex order. -/
def sccVertsOf [DecidableEq V] (g : WGraph V) (a : V) : List V :=
  g.vertexNames.filter (fun b => b ∈ reachList g a ∧ a ∈ reachList g b)

/-- The vertex list of the largest strongly connected component: models
`components(mode=STRONG).giant()` (the subgraph induced on the largest
component, vertices kept in graph order). -/
def giantSccVerts [DecidableEq V] (g : WGraph V) : List V :=
  g.vertexNames.foldl
    (fun best v =>
      let c := sccVertsOf g v
      if best.length < c.length then c else best)
    []

/-- The null-model edge dictionary of `igraphSecondOrderNull`: for every
ordered pair of vertices of the giant component graph, with `e2` carrying
its index into the stationary vector `pi`, add edge `(e1, e2)` with weight
`pi[e2.index]` when the second name component of `e1` equals the first
name component of `e2` and the weight is positive. -/
def nullModelEdges (scc : List (String × String)) (pi : Nat → ℚ) :
    List (((String × String) × (String × String)) × ℚ) :=
  scc.flatMap (fun e1 =>
    scc.enum.filterMap (fun e2 =>
      if e1.2 = e2.2.1 ∧ 0 < pi e2.1 then some ((e1, e2.2), pi e2.1) else none))

/-- The accessor `igraphSecondOrderNull`: returns the cached `g2n` when
present; otherwise reduces the second-order graph to its giant strongly
connected component, obtains the stationary distribution `pi` (the
leading-eigenvector computation `sla.eigs` is a floating-point library
call and is abstracted as the parameter `pi`, indexed by position in the
component graph), then builds the null graph whose vertex list is that of
the full second-order graph `self.g2` and whose edges run over component
vertices only. -/
def TemporalNetwork.igraphSecondOrderNull (tn : TemporalNetwork) (pi : Nat → ℚ) :
    WGraph (String × String) × TemporalNetwork :=
  match tn.g2n with
  | some g => (g, tn)
  | none =>
    let p := tn.igraphSecondOrder
    let scc := giantSccVerts p.1
    let g : WGraph (String × String) := ⟨p.1.vertexNames, nullModelEdges scc pi⟩
    (g, { p.2 with g2n := some g })

/-- Modelled from the spec (section 4.5 and section 7): the repository has
no `NullModelBuilder` class in its sources; the spec requires the
null-model construction to fail with `DegenerateModelError` when the giant
strongly connected component of the order-2 graph has fewer than 2
vertices, before any stationary distribution is computed, and otherwise to
build the null graph on the vertex set of that component. -/
def secondOrderNullSpec (tn : TemporalNetwork) (pi : Nat → ℚ) :
    Except String (WGraph (String × String)) :=
  let p := tn.igraphSecondOrder
  let scc := giantSccVerts p.1
  if scc.length < 2 then Except.error "DegenerateModelError"
  else Except.ok ⟨scc, nullModelEdges scc pi⟩

/-- The randomizer `ShuffleTwoPaths(l)`: extracts two-paths if needed, then
for `l / 2` draws picks a timestamp, a mid node and a two-path (each draw
`np.random.randint(0, n)` is modelled by the oracle `rng` reduced modulo
`n`), and emits the two constituent edges at times `t` and `t + 1` where
the local variable `t` is initialised to `0` and never changed by the
source. The result is a fresh `TemporalNetwork` built from the emitted
edges. -/
def TemporalNetwork.ShuffleTwoPaths (tn : TemporalNetwork) (l : Nat) (rng : Nat → Nat) : TemporalNetwork :=
  let tn2 := if tn.tpcount = -1 then tn.extractTwoPaths 1 else tn
  let t : Int := 0
  let times := tn2.twopathsByTime.map (fun p => p.1)
  let len := if l = 0 then tn2.tedges.length else l
  let es := (List.range (len / 2)).flatMap (fun i =>
    let rt := times.getD (rng (3 * i) % tn2.twopathsByTime.length) 0
    let inner := lookupD tn2.twopathsByTime rt []
    let rn := (inner.map (fun p => p.1)).getD (rng (3 * i + 1) % inner.length) ""
    let paths := lookupD inner rn []
    let tp := paths.getD (rng (3 * i + 2) % paths.length) ⟨"", "", "", 0⟩
    [⟨tp.src, tp.mid, t⟩, ⟨tp.mid, tp.dst, t + 1⟩])
  mkFromTEdges es

/-- A weighted k-path from `AggregateNetwork`: Python
`{ "nodes": key, "weight": val }`. -/
structure KPath where
  nodes : List String
  w : ℚ
deriving DecidableEq, Repr

/-- The `possible_path` structure of `__extract_k_paths`: a defaultdict
from a node to the list of candidate paths currently ending at it. -/
abbrev PathMap := List (String × List (List String))

/-- The per-node loop state of `__extract_k_paths`: `possible_path`, the
`new_candidate_nodes` set, and the per-node `update` dictionary. -/
structure KState where
  pp : PathMap
  ncand : List String
  upd : List (List String × ℚ)
deriving Repr

/-- The body of the innermost loop of `__extract_k_paths` for one live
candidate path and one extending edge with destination `dst`: skip when
the path already ends at `dst` (this is exactly the case of a self-loop
extending edge, since every live path at `src` ends at `src`); otherwise
append the extended path at its new endpoint, record the endpoint as a new
candidate, and, when the extension completes a path of the target length,
accumulate its apportioned weight in the `update` dictionary. `live` is
the current `possible_path[src]` list, read live by the Python code both
for iteration and in the sibling count of the weight. -/
def extendWithPath (order ck lenNew : Nat) (live : List (List String)) (dst : String)
    (st : KState) (path : List String) : KState :=
  if path.getLast? = some dst then st
  else if ck + 1 = order ∧ (path ++ [dst]).length = order + 1 then
    { pp := updateAssoc dst (fun l => l ++ [path ++ [dst]]) [] st.pp
      ncand := addUnique st.ncand dst
      upd := updateAssoc (path ++ [dst])
        (fun x => x + (1 : ℚ) / ((lenNew : ℚ)
          * (((live.filter (fun p => p.length = order)).length : ℚ))))
        0 st.upd }
  else
    { pp := updateAssoc dst (fun l => l ++ [path ++ [dst]]) [] st.pp
      ncand := addUnique st.ncand dst
      upd := st.upd }

/-- Process one extending edge: iterate over the current
`possible_path[src]` list. -/
def processEdge (order ck lenNew : Nat) (st : KState) (e : TEdge) : KState :=
  let live := lookupD st.pp e.src []
  live.foldl (extendWithPath order ck lenNew live e.dst) st

/-- Process one candidate node at depth `ck` in block `t`: gather the
extending edges from the `sources` index over the next window, fold them
through the path extension, then flush the per-node `update` dictionary to
the k-path list. -/
def processNode (tedges : List TEdge) (order dt : Nat) (t : Int) (ck : Nat)
    (acc : PathMap × List String × List KPath) (node : String) :
    PathMap × List String × List KPath :=
  let newEdges := (List.range dt).flatMap (fun i => outEdges tedges (t + (ck : Int) + (i : Int)) node)
  let st0 : KState := ⟨acc.1, acc.2.1, []⟩
  let st := newEdges.foldl (processEdge order ck newEdges.length) st0
  (st.pp, st.ncand, acc.2.2 ++ st.upd.map (fun kv => ⟨kv.1, kv.2⟩))

/-- One depth `ck` of the `for current_k in range(1, order)` loop: fold all
candidate nodes with a fresh `new_candidate_nodes` set, then replace the
candidate set. -/
def processDepth (tedges : List TEdge) (order dt : Nat) (t : Int) (ck : Nat)
    (s : PathMap × List String × List KPath) : PathMap × List String × List KPath :=
  s.2.1.foldl (processNode tedges order dt t ck) (s.1, [], s.2.2)

/-- The base case (`k == 0`) of a block: seed `possible_path` and the
candidate set from the non-self-loop edges of the window, in edge order. -/
def kBaseCase (es : List TEdge) : PathMap × List String :=
  es.foldl
    (fun pc e =>
      if e.src ≠ e.dst then
        (updateAssoc e.dst (fun l => l ++ [[e.src, e.dst]]) [] pc.1, addUnique pc.2 e.dst)
      else pc)
    ([], [])

/-- All k-paths found in the block starting at timestamp `t`. -/
def kPathsOfBlock (tedges : List TEdge) (order dt : Nat) (t : Int) : List KPath :=
  let ces := (List.range dt).flatMap (fun i => edgesAt tedges (t + (i : Int)))
  let base := kBaseCase ces
  ((List.range' 1 (order - 1)).foldl
    (fun s ck => processDepth tedges order dt t ck s)
    (base.1, base.2, [])).2.2

/-- The block loop of `__extract_k_paths`: walk the ordered timestamps,
skipping any timestamp below `next_valid_t` (initialised to `0` by the
source) and advancing `next_valid_t` to `t + dt` per processed block. -/
def kBlocksGo (tedges : List TEdge) (order dt : Nat) : Int → List Int → List KPath
  | _, [] => []
  | nvt, t :: rest =>
    if t < nvt then kBlocksGo tedges order dt nvt rest
    else kPathsOfBlock tedges order dt t ++ kBlocksGo tedges order dt (t + (dt : Int)) rest

/-- The extractor `AggregateNetwork.__extract_k_paths`. The temporal
network attributes it reads (`ordered_times`, `time`, `sources`) are
absent from the `TemporalNetwork` sources; they are modelled from the
spec (section 3, EdgeStore): `orderedTimes` the sorted distinct
timestamps, `byTime` and `sourcesAt` the per-time edge indices, all
derived from the stored edge list. -/
def extract_k_paths (tedges : List TEdge) (order dt : Nat) : List KPath :=
  kBlocksGo tedges order dt 0 (sortedTimes tedges)

/-- Adjacent entries of a node sequence are pairwise distinct: no step of
the path is a self-loop. -/
def chainNe : List String → Bool
  | [] => true
  | [_] => true
  | a :: b :: rest => a ≠ b && chainNe (b :: rest)

/-- The edge sequence of the concrete scenario in the spec (section 8). -/
def scenarioEdges : List TEdge := [⟨"A","B",1⟩, ⟨"B","C",2⟩, ⟨"A","B",3⟩, ⟨"B","D",4⟩]

/-- A two-edge chain producing a single two-path. -/
def smallEdges : List TEdge := [⟨"A","B",1⟩, ⟨"B","C",2⟩]

/-- Two incoming edges converging on `C` followed by one continuation. -/
def fanInEdges : List TEdge := [⟨"A","C",1⟩, ⟨"B","C",1⟩, ⟨"C","D",2⟩]

/-- A pair of joinable edges at timestamps 1 and 3 separated by an
unrelated edge at timestamp 2. -/
def gapEdges : List TEdge := [⟨"A","B",1⟩, ⟨"X","Y",2⟩, ⟨"B","C",3⟩]

/-- Edges whose second-order graph has a two-vertex strongly connected
component plus one vertex outside it. -/
def cycleEdges : List TEdge := [⟨"A","B",1⟩, ⟨"B","A",2⟩, ⟨"A","B",3⟩, ⟨"B","C",4⟩]

/-- An ordinary edge followed by a self-loop on its target. -/
def loopEdges : List TEdge := [⟨"A","V",1⟩, ⟨"V","V",2⟩]

/-- The position of the first occurrence of an element: models the igraph
vertex attribute `index` (position in the vertex list). -/
def idxIn [DecidableEq α] : List α → α → Nat
  | [], _ => 0
  | x :: xs, a => if x = a then 0 else idxIn xs a + 1

/-- Invariant of the `possible_path` structure: every stored candidate
path has pairwise-distinct adjacent nodes and ends at its bucket key. -/
def GoodPP (pp : PathMap) : Prop :=
  ∀ (node : String) (p : List String), p ∈ lookupD pp node [] →
    chainNe p = true ∧ p.getLast? = some node

/-- Invariant of the per-node `update` dictionary: every key is a node
sequence with pairwise-distinct adjacent nodes. -/
def GoodUpd (upd : List (List String × ℚ)) : Prop :=
  ∀ kv ∈ upd, chainNe kv.1 = true

/-- Invariant of the accumulated k-path list. -/
def GoodKP (kps : List KPath) : Prop :=
  ∀ kp ∈ kps, chainNe kp.nodes = true

/-- C1, counterexample. The stored incoming edge `(A,C,1)` has the valid
continuation `(C,D,2)` in the window for `delta = 1`, yet the total weight
of the two-paths `(A,C,·)` that extraction generates from it is `1/2`, not
`1`: the mid node `C` has two incoming edges at time 1, and the weight
`1/(indeg*outdeg)` makes the per-incoming-edge total `1/indeg`. -/
theorem C1_per_incoming_edge_sum_counterexample :
    (⟨"A","C",1⟩ ∈ fanInEdges) ∧ (⟨"C","D",2⟩ ∈ fanInEdges)
    ∧ sumWeights ((extractTwoPathsList fanInEdges 1).filter
        (fun tp => tp.src == "A" && tp.mid == "C")) = 1/2
    ∧ ((1 : ℚ)/2 ≠ 1) := by
  refine ⟨by decide, by decide, ?_, by norm_num⟩
  simp +decide [extractTwoPathsList, extractTwoPathsPairs, extractAux, sortedTimes, firstDedup,
    firstDedupAux, sortInts, insertSorted, twoPathsOfPair, targetNodesAt, edgesAt, inEdges,
    outEdges, fanInEdges, List.filter, List.flatMap, sumWeights]

/-- C2, counterexample. The stored edges `(A,B,1)` and `(B,C,3)` satisfy
`t < t' ≤ t + delta` for `delta = 2`, but extraction produces no two-path
at all: the loop in `extractTwoPaths` only pairs consecutive distinct
timestamps, and the intermediate timestamp 2 separates 1 from 3. -/
theorem C2_window_pairing_counterexample :
    (⟨"A","B",1⟩ ∈ gapEdges) ∧ (⟨"B","C",3⟩ ∈ gapEdges)
    ∧ ((1 : Int) < 3) ∧ ((3 : Int) ≤ 1 + 2)
    ∧ extractTwoPathsList gapEdges 2 = [] := by
  refine ⟨by decide, by decide, by decide, by decide, ?_⟩
  simp +decide [extractTwoPathsList, extractTwoPathsPairs, extractAux, sortedTimes, firstDedup,
    firstDedupAux, sortInts, insertSorted, twoPathsOfPair, targetNodesAt, edgesAt, inEdges,
    outEdges, gapEdges, List.filter, List.flatMap]

/-- C3. After the first-order graph has been cached, `addEdge` appends the
new edge and node but leaves the cache in place, so the accessor returns
the stale cached graph: the new node `D` is in the node list yet absent
from the graph the accessor returns, which is the graph computed before
the mutation. -/
theorem C3_addEdge_stale_graph_cache :
    ("D" ∈ ((mkFromTEdges smallEdges).igraphFirstOrder.2.addEdge "C" "D" 3).nodes)
    ∧ ((mkFromTEdges smallEdges).igraphFirstOrder.2.addEdge "C" "D" 3).igraphFirstOrder.1
        = (mkFromTEdges smallEdges).igraphFirstOrder.1
    ∧ "D" ∉ ((mkFromTEdges smallEdges).igraphFirstOrder.2.addEdge "C" "D" 3).igraphFirstOrder.1.vertexNames := by
  refine ⟨?_, ?_, ?_⟩ <;>
  simp +decide [extractTwoPathsList, extractTwoPathsPairs, extractAux, sortedTimes, firstDedup,
    firstDedupAux, sortInts, insertSorted, twoPathsOfPair, targetNodesAt, edgesAt, inEdges,
    outEdges, smallEdges, List.filter, List.flatMap, TemporalNetwork.extractTwoPaths,
    mkFromTEdges, TemporalNetwork.igraphFirstOrder, TemporalNetwork.addEdge,
    firstOrderEdges, updateAssoc, addUnique]

/-- C4. Running `extractTwoPaths` twice on an unchanged network leaves the
flat two-path list equal to its single-run state, but the `twopathsByNode`
and `twopathsByTime` indices differ from it: the source resets only
`self.twopaths` and appends into the two index dictionaries. -/
theorem C4_reextraction_appends_to_indices :
    (((mkFromTEdges smallEdges).extractTwoPaths 1).extractTwoPaths 1).twopaths
        = ((mkFromTEdges smallEdges).extractTwoPaths 1).twopaths
    ∧ (((mkFromTEdges smallEdges).extractTwoPaths 1).extractTwoPaths 1).twopathsByNode
        ≠ ((mkFromTEdges smallEdges).extractTwoPaths 1).twopathsByNode
    ∧ (((mkFromTEdges smallEdges).extractTwoPaths 1).extractTwoPaths 1).twopathsByTime
        ≠ ((mkFromTEdges smallEdges).extractTwoPaths 1).twopathsByTime := by
  refine ⟨?_, ?_, ?_⟩ <;>
  simp +decide [extractTwoPathsList, extractTwoPathsPairs, extractAux, sortedTimes, firstDedup,
    firstDedupAux, sortInts, insertSorted, twoPathsOfPair, targetNodesAt, edgesAt, inEdges,
    outEdges, smallEdges, List.filter, List.flatMap, TemporalNetwork.extractTwoPaths,
    mkFromTEdges, updateAssoc, addUnique]

/-- C5, counterexample. On `cycleEdges` the giant strongly connected
component of the second-order graph is `[(A;B), (B;A)]`, yet the null
graph returned by `igraphSecondOrderNull` also contains the vertex
`(B;C)`: its vertex list is copied from the full second-order graph
`self.g2`, not from the component. -/
theorem C5_null_vertex_set_counterexample :
    (("B","C") ∈ ((mkFromTEdges cycleEdges).igraphSecondOrderNull (fun _ => 1/2)).1.vertexNames)
    ∧ (("B","C") ∉ giantSccVerts (mkFromTEdges cycleEdges).igraphSecondOrder.1)
    ∧ giantSccVerts (mkFromTEdges cycleEdges).igraphSecondOrder.1 = [("A","B"), ("B","A")] := by
  refine ⟨by decide, by decide, by decide⟩

/-- C6, counterexample. On `smallEdges` the second-order graph has two
vertices and one edge, so its giant strongly connected component is a
single vertex; the spec-modelled builder fails with
`DegenerateModelError`, but `igraphSecondOrderNull` performs no such
check and proceeds to construct and return a null graph. -/
theorem C6_no_degenerate_error_counterexample :
    secondOrderNullSpec (mkFromTEdges smallEdges) (fun _ => 1/2) = Except.error "DegenerateModelError"
    ∧ ((mkFromTEdges smallEdges).igraphSecondOrderNull (fun _ => 1/2)).1.vertexNames
        = [("A","B"), ("B","C")] := by
  refine ⟨by rfl, by decide⟩

/-- C7, counterexample. The self-loop edge `(V,V,2)` is the only outgoing
edge of `V` at time 2, and extraction produces the two-path `(A,V,V)`
whose second step is that self-loop: `extractTwoPaths` does not exclude
self-loop edges. -/
theorem C7_two_path_self_loop_counterexample :
    (⟨"V","V",2⟩ ∈ loopEdges)
    ∧ outEdges loopEdges 2 "V" = [⟨"V","V",2⟩]
    ∧ extractTwoPathsList loopEdges 1 = [⟨"A","V","V",1⟩] := by
  refine ⟨by decide, by decide, ?_⟩
  simp +decide [extractTwoPathsList, extractTwoPathsPairs, extractAux, sortedTimes, firstDedup,
    firstDedupAux, sortInts, insertSorted, twoPathsOfPair, targetNodesAt, edgesAt, inEdges,
    outEdges, loopEdges, List.filter, List.flatMap]

/-- C8. With four requested edges and any draws, both loop iterations of
`ShuffleTwoPaths` emit their edge pair at timestamps 0 and 1 (the local
variable `t` is never advanced), so the synthetic timestamp pairs of
different iterations coincide instead of being disjoint; with length
argument 0 the length defaults to the edge count 2, giving one draw. -/
theorem C8_shuffle_timestamp_reuse :
    ((mkFromTEdges smallEdges).ShuffleTwoPaths 4 (fun _ => 0)).tedges
      = [⟨"A","B",0⟩, ⟨"B","C",1⟩, ⟨"A","B",0⟩, ⟨"B","C",1⟩]
    ∧ ((mkFromTEdges smallEdges).ShuffleTwoPaths 0 (fun _ => 0)).tedges
      = [⟨"A","B",0⟩, ⟨"B","C",1⟩] := by
  constructor <;>
  simp +decide [TemporalNetwork.ShuffleTwoPaths, extractTwoPathsList, extractTwoPathsPairs,
    extractAux, sortedTimes, firstDedup, firstDedupAux, sortInts, insertSorted, twoPathsOfPair,
    targetNodesAt, edgesAt, inEdges, outEdges, smallEdges, List.filter, List.flatMap,
    TemporalNetwork.extractTwoPaths, mkFromTEdges, updateAssoc, addUnique, lookupD, List.range,
    List.range.loop]

/-- C9. On the spec scenario `[(A,B,1),(B,C,2),(A,B,3),(B,D,4)]` with
`delta = 1`, extraction yields exactly the two-paths `(A,B,C)` and
`(A,B,D)` of weight 1, the two-path count is 2, and the first-order graph
carries edge weights `A -> B = 2`, `B -> C = 1`, `B -> D = 1`. -/
theorem C9_concrete_scenario :
    extractTwoPathsList scenarioEdges 1 = [⟨"A","B","C",1⟩, ⟨"A","B","D",1⟩]
    ∧ (mkFromTEdges scenarioEdges).TwoPathCount.1 = 2
    ∧ (mkFromTEdges scenarioEdges).igraphFirstOrder.1.edges
        = [(("A","B"), 2), (("B","C"), 1), (("B","D"), 1)]
    ∧ (mkFromTEdges scenarioEdges).igraphFirstOrder.1.vertexNames = ["A", "B", "C", "D"] := by
  refine ⟨?_, ?_, ?_, ?_⟩ <;>
  · simp +decide [extractTwoPathsList, extractTwoPathsPairs, extractAux, sortedTimes, firstDedup,
      firstDedupAux, sortInts, insertSorted, twoPathsOfPair, targetNodesAt, edgesAt, inEdges,
      outEdges, scenarioEdges, List.filter, List.flatMap, TemporalNetwork.TwoPathCount,
      TemporalNetwork.extractTwoPaths, mkFromTEdges, TemporalNetwork.igraphFirstOrder,
      firstOrderEdges, updateAssoc, addUnique]
    try norm_num

lemma mem_addUnique_self [DecidableEq α] (l : List α) (x : α) : x ∈ addUnique l x := by
  unfold addUnique
  split
  · assumption
  · simp

lemma mem_addUnique_of_mem [DecidableEq α] {l : List α} {a : α} (x : α) (h : a ∈ l) :
    a ∈ addUnique l x := by
  unfold addUnique
  split
  · exact h
  · simp [h]

lemma mem_firstDedupAux [DecidableEq α] {a : α} :
    ∀ (l seen : List α), a ∈ firstDedupAux seen l ↔ (a ∈ l ∧ a ∉ seen)
  | [], seen => by simp [firstDedupAux]
  | x :: xs, seen => by
    unfold firstDedupAux
    by_cases hx : x ∈ seen
    · rw [if_pos hx, mem_firstDedupAux xs seen]
      by_cases hax : a = x <;> simp_all
    · rw [if_neg hx]
      by_cases hax : a = x
      · subst hax; simp [hx]
      · simp only [List.mem_cons, hax, false_or]
        rw [mem_firstDedupAux xs (x :: seen)]
        simp [hax]

lemma mem_firstDedup [DecidableEq α] {a : α} (l : List α) : a ∈ firstDedup l ↔ a ∈ l := by
  simp [firstDedup, mem_firstDedupAux]

lemma sum_map_constQ (l : List α) (c : ℚ) : (l.map (fun _ => c)).sum = l.length * c := by
  induction l with
  | nil => simp
  | cons x xs ih => simp [ih]; ring

/-- C10. A network built from a precomputed two-path list has no
time-stamped edges, reports the supplied two-path count without
triggering extraction (the state is returned unchanged), counts its
vertices as the length of the node list, and every node appearing in a
supplied two-path is in the node list. -/
theorem C10_two_path_constructor (tps : List TwoPath) :
    (mkFromTwoPaths tps).ecount = 0
    ∧ (mkFromTwoPaths tps).TwoPathCount.1 = tps.length
    ∧ (mkFromTwoPaths tps).TwoPathCount.2 = mkFromTwoPaths tps
    ∧ (mkFromTwoPaths tps).vcount = (mkFromTwoPaths tps).nodes.length
    ∧ ∀ tp ∈ tps, tp.src ∈ (mkFromTwoPaths tps).nodes ∧ tp.mid ∈ (mkFromTwoPaths tps).nodes
        ∧ tp.dst ∈ (mkFromTwoPaths tps).nodes := by
  have hcnt : ¬ ((mkFromTwoPaths tps).tpcount = -1) := by
    simp only [mkFromTwoPaths]
    omega
  refine ⟨rfl, ?_, ?_, rfl, ?_⟩
  · simp [TemporalNetwork.TwoPathCount, hcnt, mkFromTwoPaths]
  · simp [TemporalNetwork.TwoPathCount, hcnt]
  · have main : ∀ (l : List TwoPath) (acc : List String) (tp : TwoPath), tp ∈ l →
        tp.src ∈ l.foldl (fun ns q => addUnique (addUnique (addUnique ns q.src) q.mid) q.dst) acc
        ∧ tp.mid ∈ l.foldl (fun ns q => addUnique (addUnique (addUnique ns q.src) q.mid) q.dst) acc
        ∧ tp.dst ∈ l.foldl (fun ns q => addUnique (addUnique (addUnique ns q.src) q.mid) q.dst) acc := by
      have pres : ∀ (l : List TwoPath) (acc : List String) (a : String), a ∈ acc →
          a ∈ l.foldl (fun ns q => addUnique (addUnique (addUnique ns q.src) q.mid) q.dst) acc := by
        intro l
        induction l with
        | nil => intro acc a h; simpa using h
        | cons q rest ih =>
          intro acc a h
          exact ih _ _ (mem_addUnique_of_mem _ (mem_addUnique_of_mem _ (mem_addUnique_of_mem _ h)))
      intro l
      induction l with
      | nil => intro acc tp h; simp at h
      | cons q rest ih =>
        intro acc tp h
        rcases List.mem_cons.1 h with h | h
        · subst h
          rw [List.foldl_cons]
          exact ⟨pres _ _ _ (mem_addUnique_of_mem _ (mem_addUnique_of_mem _ (mem_addUnique_self _ _))),
            pres _ _ _ (mem_addUnique_of_mem _ (mem_addUnique_self _ _)),
            pres _ _ _ (mem_addUnique_self _ _)⟩
        · rw [List.foldl_cons]
          exact ih _ tp h
    intro tp h
    exact main tps [] tp h

/-- C10, witness. -/
theorem C10_two_path_constructor_witness :
    (⟨"A","B","C",1⟩ : TwoPath) ∈ [(⟨"A","B","C",1⟩ : TwoPath)]
    ∧ (mkFromTwoPaths [⟨"A","B","C",1⟩]).ecount = 0
    ∧ (mkFromTwoPaths [⟨"A","B","C",1⟩]).TwoPathCount.1 = 1
    ∧ "B" ∈ (mkFromTwoPaths [⟨"A","B","C",1⟩]).nodes := by
  refine ⟨List.mem_singleton.2 rfl, (C10_two_path_constructor [⟨"A","B","C",1⟩]).1,
    (C10_two_path_constructor [⟨"A","B","C",1⟩]).2.1,
    ((C10_two_path_constructor [⟨"A","B","C",1⟩]).2.2.2.2 ⟨"A","B","C",1⟩
      (List.mem_singleton.2 rfl)).2.1⟩

/-- C1, amended. From one stored incoming edge of the mid node, extraction
generates one two-path per outgoing continuation; their weights sum to
`1 / indeg` of the mid node at the earlier time (so to 1 exactly when the
incoming edge is alone), and each of them is among the two-paths of the
timestamp pair. -/
theorem C1_per_incoming_edge_weight_sum (tedges : List TEdge) (prevT t : Int) (eIn : TEdge)
    (hin : eIn ∈ inEdges tedges prevT eIn.dst)
    (hout : outEdges tedges t eIn.dst ≠ []) :
    sumWeights (twoPathsFromInEdge tedges prevT t eIn)
      = 1 / ((inEdges tedges prevT eIn.dst).length : ℚ)
    ∧ ∀ tp ∈ twoPathsFromInEdge tedges prevT t eIn, tp ∈ twoPathsOfPair tedges prevT t := by
  have hinL : (inEdges tedges prevT eIn.dst).length ≠ 0 := by
    intro h
    rw [List.length_eq_zero] at h
    rw [h] at hin
    simp at hin
  have houtL : (outEdges tedges t eIn.dst).length ≠ 0 := by
    intro h
    exact hout (List.length_eq_zero.1 h)
  constructor
  · unfold sumWeights twoPathsFromInEdge
    rw [List.map_map]
    have : ((fun tp : TwoPath => tp.w) ∘ fun eOut : TEdge =>
        (⟨eIn.src, eIn.dst, eOut.dst,
          (1 : ℚ) / (((inEdges tedges prevT eIn.dst).length : ℚ) * ((outEdges tedges t eIn.dst).length : ℚ))⟩ : TwoPath))
        = fun _ => (1 : ℚ) / (((inEdges tedges prevT eIn.dst).length : ℚ) * ((outEdges tedges t eIn.dst).length : ℚ)) := rfl
    rw [this, sum_map_constQ]
    have h1 : ((inEdges tedges prevT eIn.dst).length : ℚ) ≠ 0 := by exact_mod_cast hinL
    have h2 : ((outEdges tedges t eIn.dst).length : ℚ) ≠ 0 := by exact_mod_cast houtL
    field_simp
    ring
  · intro tp htp
    obtain ⟨eOut, hEO, rfl⟩ := List.mem_map.1 htp
    unfold twoPathsOfPair
    apply List.mem_flatMap.2
    refine ⟨eIn.dst, ?_, ?_⟩
    · unfold targetNodesAt
      rw [mem_firstDedup]
      apply List.mem_map.2
      refine ⟨eIn, ?_, rfl⟩
      unfold edgesAt
      unfold inEdges at hin
      rw [List.mem_filter] at hin ⊢
      refine ⟨hin.1, ?_⟩
      have := of_decide_eq_true hin.2
      simp [this.1]
    · rw [if_neg (by simp [List.isEmpty_iff, hout])]
      apply List.mem_flatMap.2
      refine ⟨eOut, hEO, ?_⟩
      apply List.mem_map.2
      exact ⟨eIn, hin, rfl⟩

/-- C1, witness. -/
theorem C1_per_incoming_edge_weight_sum_witness :
    ((⟨"A","C",1⟩ : TEdge) ∈ inEdges fanInEdges 1 "C")
    ∧ (outEdges fanInEdges 2 "C" ≠ [])
    ∧ sumWeights (twoPathsFromInEdge fanInEdges 1 2 ⟨"A","C",1⟩)
        = 1 / ((inEdges fanInEdges 1 "C").length : ℚ) := by
  refine ⟨by decide, by decide, (C1_per_incoming_edge_weight_sum fanInEdges 1 2 ⟨"A","C",1⟩ (by decide) (by decide)).1⟩

/-- C6, amended. When the giant strongly connected component of the
second-order graph has fewer than 2 vertices, the spec-modelled builder
fails with `DegenerateModelError`, but the source accessor performs no
check and proceeds: it still returns the null graph built on the full
second-order vertex list. -/
theorem C6_null_model_proceeds_when_degenerate (tn : TemporalNetwork) (pi : Nat → ℚ)
    (hc : tn.g2n = none)
    (hdeg : (giantSccVerts tn.igraphSecondOrder.1).length < 2) :
    secondOrderNullSpec tn pi = Except.error "DegenerateModelError"
    ∧ (tn.igraphSecondOrderNull pi).1.vertexNames = tn.igraphSecondOrder.1.vertexNames := by
  constructor
  · unfold secondOrderNullSpec
    rw [if_pos hdeg]
  · unfold TemporalNetwork.igraphSecondOrderNull
    rw [hc]

/-- C6, witness. -/
theorem C6_null_model_proceeds_when_degenerate_witness :
    (mkFromTEdges smallEdges).g2n = none
    ∧ (giantSccVerts (mkFromTEdges smallEdges).igraphSecondOrder.1).length < 2
    ∧ ((mkFromTEdges smallEdges).igraphSecondOrderNull (fun _ => 1)).1.vertexNames
        = (mkFromTEdges smallEdges).igraphSecondOrder.1.vertexNames := by
  refine ⟨rfl, by decide,
    (C6_null_model_proceeds_when_degenerate (mkFromTEdges smallEdges) (fun _ => 1) rfl (by decide)).2⟩

lemma mem_twoPathsOfPair_of_edges (tedges : List TEdge) (a b : Int) (eIn eOut : TEdge)
    (hin : eIn ∈ inEdges tedges a eIn.dst) (hout : eOut ∈ outEdges tedges b eIn.dst) :
    (⟨eIn.src, eIn.dst, eOut.dst, (1:ℚ) / (((inEdges tedges a eIn.dst).length : ℚ)
        * ((outEdges tedges b eIn.dst).length : ℚ))⟩ : TwoPath) ∈ twoPathsOfPair tedges a b := by
  unfold twoPathsOfPair
  apply List.mem_flatMap.2
  refine ⟨eIn.dst, ?_, ?_⟩
  · unfold targetNodesAt
    rw [mem_firstDedup]
    apply List.mem_map.2
    refine ⟨eIn, ?_, rfl⟩
    unfold edgesAt
    unfold inEdges at hin
    rw [List.mem_filter] at hin ⊢
    refine ⟨hin.1, ?_⟩
    have := of_decide_eq_true hin.2
    simp [this.1]
  · have hne : outEdges tedges b eIn.dst ≠ [] := by
      intro h
      rw [h] at hout
      simp at hout
    rw [if_neg (by simp [List.isEmpty_iff, hne])]
    apply List.mem_flatMap.2
    refine ⟨eOut, hout, ?_⟩
    apply List.mem_map.2
    exact ⟨eIn, hin, rfl⟩

lemma mem_extractAux_of_adjacent (tedges : List TEdge) (delta : Int) (a b : Int) (tp : TwoPath)
    (ha : a ≠ -1) (hw : ¬ (a < b - delta)) (htp : tp ∈ twoPathsOfPair tedges a b) :
    ∀ (l1 : List Int) (prev : Int) (l2 : List Int),
      (b, tp) ∈ extractAux tedges delta prev (l1 ++ a :: b :: l2) := by
  intro l1
  induction l1 with
  | nil =>
    intro prev l2
    simp only [List.nil_append, extractAux]
    apply List.mem_append_right
    apply List.mem_append_left
    rw [if_neg (by push_neg; exact ⟨ha, not_lt.1 hw⟩)]
    exact List.mem_map.2 ⟨tp, htp, rfl⟩
  | cons x xs ih =>
    intro prev l2
    simp only [List.cons_append, extractAux]
    exact List.mem_append_right _ (ih x l2)

/-- C2, amended. For every pair of stored edges `(s,v,t)` and `(v,d,t')`
whose timestamps are adjacent in the sorted list of distinct timestamps,
with `t` not the loop sentinel `-1` and `t' ≤ t + delta`, extraction
produces the two-path `(s,v,d)` with the apportioned weight. (Pairs whose
timestamps are separated by an intermediate distinct timestamp are not
joined, as the counterexample shows.) -/
theorem C2_consecutive_timestamp_pairing (tedges : List TEdge) (delta : Int) (e1 e2 : TEdge)
    (h1 : e1 ∈ tedges) (h2 : e2 ∈ tedges) (hmid : e1.dst = e2.src)
    (hadj : ∃ l1 l2, sortedTimes tedges = l1 ++ e1.t :: e2.t :: l2)
    (hsent : e1.t ≠ -1)
    (hwin : ¬ (e1.t < e2.t - delta)) :
    (⟨e1.src, e1.dst, e2.dst, (1:ℚ) / (((inEdges tedges e1.t e1.dst).length : ℚ)
        * ((outEdges tedges e2.t e1.dst).length : ℚ))⟩ : TwoPath)
      ∈ extractTwoPathsList tedges delta := by
  obtain ⟨l1, l2, hst⟩ := hadj
  have hinmem : e1 ∈ inEdges tedges e1.t e1.dst := by
    unfold inEdges
    rw [List.mem_filter]
    exact ⟨h1, by simp⟩
  have houtmem : e2 ∈ outEdges tedges e2.t e1.dst := by
    unfold outEdges
    rw [List.mem_filter]
    refine ⟨h2, ?_⟩
    rw [decide_eq_true_eq]
    exact ⟨rfl, hmid.symm⟩
  have htp := mem_twoPathsOfPair_of_edges tedges e1.t e2.t e1 e2 hinmem houtmem
  have hmem := mem_extractAux_of_adjacent tedges delta e1.t e2.t _ hsent hwin htp l1 (-1) l2
  unfold extractTwoPathsList extractTwoPathsPairs
  rw [hst]
  exact List.mem_map.2 ⟨(e2.t, _), hmem, rfl⟩

/-- C2, witness. -/
theorem C2_consecutive_timestamp_pairing_witness :
    ((⟨"A","B",1⟩ : TEdge) ∈ smallEdges) ∧ ((⟨"B","C",2⟩ : TEdge) ∈ smallEdges)
    ∧ sortedTimes smallEdges = [] ++ 1 :: 2 :: []
    ∧ (⟨"A","B","C", (1:ℚ) / (((inEdges smallEdges 1 "B").length : ℚ)
        * ((outEdges smallEdges 2 "B").length : ℚ))⟩ : TwoPath)
      ∈ extractTwoPathsList smallEdges 1 := by
  refine ⟨by decide, by decide, by decide,
    C2_consecutive_timestamp_pairing smallEdges 1 ⟨"A","B",1⟩ ⟨"B","C",2⟩ (by decide) (by decide)
      rfl ⟨[], [], by decide⟩ (by decide) (by decide)⟩

lemma nodup_firstDedupAux [DecidableEq α] :
    ∀ (l seen : List α), (firstDedupAux seen l).Nodup
  | [], _ => by simp [firstDedupAux]
  | x :: xs, seen => by
    unfold firstDedupAux
    by_cases hx : x ∈ seen
    · rw [if_pos hx]
      exact nodup_firstDedupAux xs seen
    · rw [if_neg hx]
      refine List.nodup_cons.2 ⟨?_, nodup_firstDedupAux xs (x :: seen)⟩
      intro hmem
      exact ((mem_firstDedupAux xs (x :: seen)).1 hmem).2 (List.mem_cons_self x seen)

lemma nodup_firstDedup [DecidableEq α] (l : List α) : (firstDedup l).Nodup :=
  nodup_firstDedupAux l []

lemma nodup_giantSccVerts [DecidableEq V] (g : WGraph V) (h : g.vertexNames.Nodup) :
    (giantSccVerts g).Nodup := by
  unfold giantSccVerts
  have main : ∀ (l : List V) (best : List V), best.Nodup →
      (l.foldl (fun best v =>
        let c := sccVertsOf g v
        if best.length < c.length then c else best) best).Nodup := by
    intro l
    induction l with
    | nil => intro best hb; simpa using hb
    | cons v rest ih =>
      intro best hb
      rw [List.foldl_cons]
      apply ih
      dsimp only
      split
      · exact List.Nodup.filter _ h
      · exact hb
  exact main _ [] List.nodup_nil

lemma mem_enumFrom_idxIn [DecidableEq α] :
    ∀ (l : List α) (n j : Nat) (b : α), l.Nodup →
      ((j, b) ∈ l.enumFrom n ↔ (b ∈ l ∧ j = n + idxIn l b))
  | [], n, j, b => by simp [idxIn]
  | x :: xs, n, j, b => by
    intro hn
    rw [List.enumFrom_cons, List.mem_cons]
    obtain ⟨hx, hxs⟩ := List.nodup_cons.1 hn
    by_cases hbx : b = x
    · subst hbx
      simp only [idxIn, if_pos rfl, Nat.add_zero]
      constructor
      · rintro (h | h)
        · exact ⟨List.mem_cons_self _ _, (Prod.mk.injEq .. ▸ h).1⟩
        · exact absurd ((mem_enumFrom_idxIn xs (n+1) j b hxs).1 h).1 hx
      · rintro ⟨-, rfl⟩
        exact Or.inl rfl
    · have hidx : idxIn (x :: xs) b = idxIn xs b + 1 := by
        rw [show idxIn (x :: xs) b = if x = b then 0 else idxIn xs b + 1 from rfl,
          if_neg (fun h => hbx h.symm)]
      rw [hidx]
      constructor
      · rintro (h | h)
        · exact absurd (Prod.mk.injEq .. ▸ h).2 hbx
        · obtain ⟨hb, hj⟩ := (mem_enumFrom_idxIn xs (n+1) j b hxs).1 h
          exact ⟨List.mem_cons_of_mem _ hb, by omega⟩
      · rintro ⟨hb, hj⟩
        rcases List.mem_cons.1 hb with h | h
        · exact absurd h hbx
        · exact Or.inr ((mem_enumFrom_idxIn xs (n+1) _ b hxs).2 ⟨h, by omega⟩)

lemma mem_enum_idxIn [DecidableEq α] (l : List α) (j : Nat) (b : α) (hn : l.Nodup) :
    (j, b) ∈ l.enum ↔ (b ∈ l ∧ j = idxIn l b) := by
  have := mem_enumFrom_idxIn l 0 j b hn
  simpa using this

lemma mem_nullModelEdges_iff (scc : List (String × String)) (pi : Nat → ℚ)
    (h : scc.Nodup) (a b : String × String) (w : ℚ) :
    ((a, b), w) ∈ nullModelEdges scc pi ↔
      (a ∈ scc ∧ b ∈ scc ∧ a.2 = b.1 ∧ 0 < pi (idxIn scc b) ∧ w = pi (idxIn scc b)) := by
  unfold nullModelEdges
  rw [List.mem_flatMap]
  constructor
  · rintro ⟨e1, he1, hmem⟩
    obtain ⟨jb, hjb, heq⟩ := List.mem_filterMap.1 hmem
    by_cases hcond : e1.2 = jb.2.1 ∧ 0 < pi jb.1
    · rw [if_pos hcond] at heq
      obtain ⟨heq1, heq2⟩ := Prod.mk.injEq .. ▸ Option.some.inj heq
      obtain ⟨ha, hb⟩ := Prod.mk.injEq .. ▸ heq1
      subst ha
      obtain ⟨hbmem, hidx⟩ := (mem_enum_idxIn scc jb.1 jb.2 h).1 (by
        cases jb
        exact hjb)
      subst hb
      rw [hidx] at hcond heq2
      exact ⟨he1, hbmem, hcond.1, hcond.2, heq2.symm⟩
    · rw [if_neg hcond] at heq
      exact Option.noConfusion heq
  · rintro ⟨ha, hb, hmatch, hpos, rfl⟩
    refine ⟨a, ha, List.mem_filterMap.2 ⟨(idxIn scc b, b), ?_, ?_⟩⟩
    · exact (mem_enum_idxIn scc _ b h).2 ⟨hb, rfl⟩
    · rw [if_pos ⟨hmatch, hpos⟩]

/-- C5, amended. For a network with no cached null graph, the null graph
has the vertex list of the full second-order graph (not of the giant
strongly connected component), and its edges are exactly the pairs
`(a, b)` of component vertices whose order-2 names chain (`a = (x;y)`,
`b = (y;z)`) and whose successor has positive stationary mass, weighted
by that mass. -/
theorem C5_null_graph_structure (tn : TemporalNetwork) (pi : Nat → ℚ)
    (hc : tn.g2n = none) (hg2 : tn.g2 = none) :
    (tn.igraphSecondOrderNull pi).1.vertexNames = tn.igraphSecondOrder.1.vertexNames
    ∧ ∀ (a b : String × String) (w : ℚ),
        (((a, b), w) ∈ (tn.igraphSecondOrderNull pi).1.edges ↔
          (a ∈ giantSccVerts tn.igraphSecondOrder.1
            ∧ b ∈ giantSccVerts tn.igraphSecondOrder.1
            ∧ a.2 = b.1
            ∧ 0 < pi (idxIn (giantSccVerts tn.igraphSecondOrder.1) b)
            ∧ w = pi (idxIn (giantSccVerts tn.igraphSecondOrder.1) b))) := by
  have hnodupV : tn.igraphSecondOrder.1.vertexNames.Nodup := by
    unfold TemporalNetwork.igraphSecondOrder
    rw [hg2]
    exact nodup_firstDedup _
  have hnodup : (giantSccVerts tn.igraphSecondOrder.1).Nodup :=
    nodup_giantSccVerts _ hnodupV
  constructor
  · unfold TemporalNetwork.igraphSecondOrderNull
    rw [hc]
  · intro a b w
    have hedges : (tn.igraphSecondOrderNull pi).1.edges
        = nullModelEdges (giantSccVerts tn.igraphSecondOrder.1) pi := by
      unfold TemporalNetwork.igraphSecondOrderNull
      rw [hc]
    rw [hedges]
    exact mem_nullModelEdges_iff _ pi hnodup a b w

/-- C5, witness. -/
theorem C5_null_graph_structure_witness :
    (mkFromTEdges cycleEdges).g2n = none
    ∧ (mkFromTEdges cycleEdges).g2 = none
    ∧ ((mkFromTEdges cycleEdges).igraphSecondOrderNull (fun _ => 1)).1.vertexNames
        = (mkFromTEdges cycleEdges).igraphSecondOrder.1.vertexNames := by
  refine ⟨rfl, rfl,
    (C5_null_graph_structure (mkFromTEdges cycleEdges) (fun _ => 1) rfl rfl).1⟩

lemma lookupD_updateAssoc [DecidableEq α] (key : α) (f : β → β) (d : β) :
    ∀ (m : List (α × β)) (k : α),
      lookupD (updateAssoc key f d m) k d = if k = key then f (lookupD m k d) else lookupD m k d
  | [], k => by
    simp only [updateAssoc, lookupD]
    by_cases h : key = k
    · rw [if_pos h, if_pos h.symm]
    · rw [if_neg h, if_neg (fun hh => h hh.symm)]
  | (a, b) :: rest, k => by
    simp only [updateAssoc]
    by_cases h1 : a = key
    · rw [if_pos h1]
      subst h1
      simp only [lookupD]
      by_cases h2 : a = k
      · rw [if_pos h2, if_pos h2.symm, if_pos h2]
      · rw [if_neg h2, if_neg (fun hh => h2 hh.symm), if_neg h2]
    · rw [if_neg h1]
      simp only [lookupD]
      by_cases h2 : a = k
      · have hk : ¬ k = key := fun hh => h1 (h2.trans hh)
        rw [if_pos h2, if_neg hk, if_pos h2]
      · simp only [if_neg h2]
        exact lookupD_updateAssoc key f d rest k

lemma mem_updateAssoc_keys [DecidableEq α] (key : α) (f : β → β) (d : β) :
    ∀ (m : List (α × β)) (kv : α × β), kv ∈ updateAssoc key f d m →
      kv.1 = key ∨ ∃ v, (kv.1, v) ∈ m
  | [], kv => by
    intro h
    simp only [updateAssoc, List.mem_singleton] at h
    subst h
    exact Or.inl rfl
  | (a, b) :: rest, kv => by
    intro h
    by_cases h1 : a = key
    · rw [updateAssoc, if_pos h1] at h
      rcases List.mem_cons.1 h with h | h
      · subst h
        exact Or.inl h1
      · exact Or.inr ⟨kv.2, List.mem_cons_of_mem _ (by simpa using h)⟩
    · rw [updateAssoc, if_neg h1] at h
      rcases List.mem_cons.1 h with h | h
      · subst h
        exact Or.inr ⟨b, List.mem_cons_self _ _⟩
      · rcases mem_updateAssoc_keys key f d rest kv h with h | ⟨v, hv⟩
        · exact Or.inl h
        · exact Or.inr ⟨v, List.mem_cons_of_mem _ hv⟩

lemma chainNe_concat : ∀ (p : List String) (a b : String), chainNe p = true →
    p.getLast? = some a → a ≠ b → chainNe (p ++ [b]) = true
  | [], a, b => by
    intro _ h
    simp at h
  | [x], a, b => by
    intro _ hl hne
    simp only [List.getLast?_singleton, Option.some.injEq] at hl
    subst hl
    simp [chainNe, hne]
  | x :: y :: ys, a, b => by
    intro hc hl hne
    have hxy : x ≠ y ∧ chainNe (y :: ys) = true := by
      have := hc
      simp only [chainNe, Bool.and_eq_true, decide_eq_true_eq] at this
      exact this
    have hl2 : (y :: ys).getLast? = some a := by
      rwa [List.getLast?_cons_cons] at hl
    have := chainNe_concat (y :: ys) a b hxy.2 hl2 hne
    show chainNe (x :: (y :: ys) ++ [b]) = true
    simp only [List.cons_append, chainNe, Bool.and_eq_true, decide_eq_true_eq]
    exact ⟨hxy.1, by simpa using this⟩

lemma extendWithPath_preserves (order ck lenNew : Nat) (live : List (List String))
    (dst src : String) (st : KState) (path : List String)
    (hpp : GoodPP st.pp) (hupd : GoodUpd st.upd)
    (hpath : chainNe path = true) (hlast : path.getLast? = some src) :
    GoodPP (extendWithPath order ck lenNew live dst st path).pp
    ∧ GoodUpd (extendWithPath order ck lenNew live dst st path).upd := by
  unfold extendWithPath
  by_cases hskip : path.getLast? = some dst
  · rw [if_pos hskip]
    exact ⟨hpp, hupd⟩
  · rw [if_neg hskip]
    have hne : src ≠ dst := by
      intro h
      exact hskip (h ▸ hlast)
    have hchain : chainNe (path ++ [dst]) = true := chainNe_concat path src dst hpath hlast hne
    have hlast2 : (path ++ [dst]).getLast? = some dst := by
      simp
    have hpp2 : GoodPP (updateAssoc dst (fun l => l ++ [path ++ [dst]]) [] st.pp) := by
      intro node p hp
      rw [lookupD_updateAssoc] at hp
      by_cases hnode : node = dst
      · rw [if_pos hnode] at hp
        rcases List.mem_append.1 hp with h | h
        · exact hpp node p h
        · rw [List.mem_singleton] at h
          subst h
          exact ⟨hchain, hnode ▸ hlast2⟩
      · rw [if_neg hnode] at hp
        exact hpp node p hp
    by_cases hcond : ck + 1 = order ∧ (path ++ [dst]).length = order + 1
    · rw [if_pos hcond]
      constructor
      · exact hpp2
      · intro kv hkv
        rcases mem_updateAssoc_keys _ _ _ _ kv hkv with h | ⟨v, hv⟩
        · rw [h]
          exact hchain
        · exact hupd (kv.1, v) hv
    · rw [if_neg hcond]
      exact ⟨hpp2, hupd⟩

lemma foldl_extend_preserves (order ck lenNew : Nat) (live : List (List String))
    (dst src : String) :
    ∀ (lst : List (List String)) (st : KState), GoodPP st.pp → GoodUpd st.upd →
      (∀ p ∈ lst, chainNe p = true ∧ p.getLast? = some src) →
      GoodPP (lst.foldl (extendWithPath order ck lenNew live dst) st).pp
      ∧ GoodUpd (lst.foldl (extendWithPath order ck lenNew live dst) st).upd
  | [], st => by
    intro hpp hupd _
    exact ⟨hpp, hupd⟩
  | p :: rest, st => by
    intro hpp hupd hlst
    rw [List.foldl_cons]
    have hp := hlst p (List.mem_cons_self _ _)
    have := extendWithPath_preserves order ck lenNew live dst src st p hpp hupd hp.1 hp.2
    exact foldl_extend_preserves order ck lenNew live dst src rest _ this.1 this.2
      (fun q hq => hlst q (List.mem_cons_of_mem _ hq))

lemma processEdge_preserves (order ck lenNew : Nat) (st : KState) (e : TEdge)
    (hpp : GoodPP st.pp) (hupd : GoodUpd st.upd) :
    GoodPP (processEdge order ck lenNew st e).pp
    ∧ GoodUpd (processEdge order ck lenNew st e).upd := by
  unfold processEdge
  exact foldl_extend_preserves order ck lenNew _ e.dst e.src _ st hpp hupd
    (fun p hp => hpp e.src p hp)

lemma foldl_processEdge_preserves (order ck lenNew : Nat) :
    ∀ (es : List TEdge) (st : KState), GoodPP st.pp → GoodUpd st.upd →
      GoodPP (es.foldl (processEdge order ck lenNew) st).pp
      ∧ GoodUpd (es.foldl (processEdge order ck lenNew) st).upd
  | [], st => by
    intro hpp hupd
    exact ⟨hpp, hupd⟩
  | e :: rest, st => by
    intro hpp hupd
    rw [List.foldl_cons]
    have := processEdge_preserves order ck lenNew st e hpp hupd
    exact foldl_processEdge_preserves order ck lenNew rest _ this.1 this.2

lemma processNode_preserves (tedges : List TEdge) (order dt : Nat) (t : Int) (ck : Nat)
    (acc : PathMap × List String × List KPath) (node : String)
    (hpp : GoodPP acc.1) (hkp : GoodKP acc.2.2) :
    GoodPP (processNode tedges order dt t ck acc node).1
    ∧ GoodKP (processNode tedges order dt t ck acc node).2.2 := by
  have h0 : GoodUpd ([] : List (List String × ℚ)) := by
    intro kv hkv
    simp at hkv
  have hfold := foldl_processEdge_preserves order ck
    ((List.range dt).flatMap (fun i => outEdges tedges (t + (ck : Int) + (i : Int)) node)).length
    ((List.range dt).flatMap (fun i => outEdges tedges (t + (ck : Int) + (i : Int)) node))
    (⟨acc.1, acc.2.1, []⟩ : KState) hpp h0
  refine ⟨hfold.1, ?_⟩
  intro kp hkp2
  have hkp3 : kp ∈ acc.2.2 ++
      (((List.range dt).flatMap (fun i => outEdges tedges (t + (ck : Int) + (i : Int)) node)).foldl
        (processEdge order ck
          ((List.range dt).flatMap (fun i => outEdges tedges (t + (ck : Int) + (i : Int)) node)).length)
        (⟨acc.1, acc.2.1, []⟩ : KState)).upd.map (fun kv => (⟨kv.1, kv.2⟩ : KPath)) := hkp2
  rcases List.mem_append.1 hkp3 with h | h
  · exact hkp kp h
  · obtain ⟨kv, hkv, rfl⟩ := List.mem_map.1 h
    exact hfold.2 kv hkv

lemma foldl_processNode_preserves (tedges : List TEdge) (order dt : Nat) (t : Int) (ck : Nat) :
    ∀ (cand : List String) (acc : PathMap × List String × List KPath),
      GoodPP acc.1 → GoodKP acc.2.2 →
      GoodPP (cand.foldl (processNode tedges order dt t ck) acc).1
      ∧ GoodKP (cand.foldl (processNode tedges order dt t ck) acc).2.2
  | [], acc => by
    intro hpp hkp
    exact ⟨hpp, hkp⟩
  | node :: rest, acc => by
    intro hpp hkp
    rw [List.foldl_cons]
    have := processNode_preserves tedges order dt t ck acc node hpp hkp
    exact foldl_processNode_preserves tedges order dt t ck rest _ this.1 this.2

lemma foldl_processDepth_preserves (tedges : List TEdge) (order dt : Nat) (t : Int) :
    ∀ (cks : List Nat) (s : PathMap × List String × List KPath),
      GoodPP s.1 → GoodKP s.2.2 →
      GoodPP (cks.foldl (fun s ck => processDepth tedges order dt t ck s) s).1
      ∧ GoodKP (cks.foldl (fun s ck => processDepth tedges order dt t ck s) s).2.2
  | [], s => by
    intro hpp hkp
    exact ⟨hpp, hkp⟩
  | ck :: rest, s => by
    intro hpp hkp
    rw [List.foldl_cons]
    have : GoodPP (processDepth tedges order dt t ck s).1
        ∧ GoodKP (processDepth tedges order dt t ck s).2.2 := by
      unfold processDepth
      exact foldl_processNode_preserves tedges order dt t ck s.2.1 _ hpp hkp
    exact foldl_processDepth_preserves tedges order dt t rest _ this.1 this.2

lemma kBaseCase_good (es : List TEdge) : GoodPP (kBaseCase es).1 := by
  unfold kBaseCase
  have main : ∀ (l : List TEdge) (pc : PathMap × List String), GoodPP pc.1 →
      GoodPP (l.foldl (fun pc e =>
        if e.src ≠ e.dst then
          (updateAssoc e.dst (fun l => l ++ [[e.src, e.dst]]) [] pc.1, addUnique pc.2 e.dst)
        else pc) pc).1 := by
    intro l
    induction l with
    | nil => intro pc h; exact h
    | cons e rest ih =>
      intro pc h
      rw [List.foldl_cons]
      apply ih
      by_cases hse : e.src ≠ e.dst
      · rw [if_pos hse]
        intro node p hp
        simp only at hp
        rw [lookupD_updateAssoc] at hp
        by_cases hnode : node = e.dst
        · rw [if_pos hnode] at hp
          rcases List.mem_append.1 hp with hmem | hmem
          · exact h node p hmem
          · rw [List.mem_singleton] at hmem
            subst hmem
            refine ⟨?_, by simp [hnode]⟩
            simp [chainNe, hse]
        · rw [if_neg hnode] at hp
          exact h node p hp
      · rw [if_neg hse]
        exact h
  apply main
  intro node p hp
  simp [lookupD] at hp

lemma kPathsOfBlock_good (tedges : List TEdge) (order dt : Nat) (t : Int) :
    GoodKP (kPathsOfBlock tedges order dt t) := by
  unfold kPathsOfBlock
  have hbase := kBaseCase_good ((List.range dt).flatMap (fun i => edgesAt tedges (t + (i : Int))))
  have h0 : GoodKP ([] : List KPath) := by
    intro kp hkp
    simp at hkp
  exact (foldl_processDepth_preserves tedges order dt t _ _ hbase h0).2

lemma kBlocksGo_good (tedges : List TEdge) (order dt : Nat) :
    ∀ (ts : List Int) (nvt : Int), GoodKP (kBlocksGo tedges order dt nvt ts)
  | [], nvt => by
    intro kp hkp
    simp [kBlocksGo] at hkp
  | t :: rest, nvt => by
    intro kp hkp
    rw [kBlocksGo] at hkp
    split at hkp
    · exact kBlocksGo_good tedges order dt rest nvt kp hkp
    · rcases List.mem_append.1 hkp with h | h
      · exact kPathsOfBlock_good tedges order dt t kp h
      · exact kBlocksGo_good tedges order dt rest _ kp h

/-- C7, amended. Self-loop edges are stored by `addEdge` like any other
edge; the k-path extractor of `AggregateNetwork` excludes them from paths
(every extracted k-path has pairwise-distinct adjacent nodes, so no step
of it is a self-loop edge), while `extractTwoPaths` does not exclude
them, as the counterexample shows. -/
theorem C7_self_loop_policy :
    (∀ (tn : TemporalNetwork) (v : String) (time : Int),
      (⟨v, v, time⟩ : TEdge) ∈ (tn.addEdge v v time).tedges)
    ∧ (∀ (tedges : List TEdge) (order dt : Nat) (kp : KPath),
        kp ∈ extract_k_paths tedges order dt → chainNe kp.nodes = true) := by
  constructor
  · intro tn v time
    simp [TemporalNetwork.addEdge]
  · intro tedges order dt kp hkp
    exact kBlocksGo_good tedges order dt (sortedTimes tedges) 0 kp hkp

/-- C7, witness. -/
theorem C7_self_loop_policy_witness :
    chainNe ["A", "B", "C"] = true :=
  C7_self_loop_policy.2 smallEdges 2 1 ⟨["A","B","C"], 1⟩ (by
    simp +decide [extract_k_paths, kBlocksGo, kPathsOfBlock, kBaseCase, processDepth,
      processNode, processEdge, extendWithPath, sortedTimes, firstDedup, firstDedupAux,
      sortInts, insertSorted, edgesAt, outEdges, smallEdges, List.filter, List.flatMap,
      lookupD, updateAssoc, addUnique, List.range, List.range.loop, List.range'])
